import Mathlib

/-!
Verification of the breadth-first nondeterministic Turing machine tracer
(`traceTM_tfriedma.py`).  The simulator is embedded shallowly: tapes are
lists of characters, states are strings, the exploration frontier is a
list used as a FIFO queue, and the main `while` loop is modelled with a
fuel parameter.  The unguarded Python division `states_explored / depth`
on the reject path raises `ZeroDivisionError` when `depth == 0`; that
failure is made explicit as the `zeroDivisionError` outcome.
-/

namespace NTMTrace

/-- A path entry: (state_from, read_symbol, next_state, write_symbol, direction),
as appended at line 105 of the source. -/
abbrev Step := String × Char × String × Char × String

/-- A transition table entry: (next_state, replace_symbol, move_direction).
The direction is kept as a raw string because the source must detect
malformed directions at runtime. -/
abbrev Trans := String × Char × String

/-- The machine dictionary built by `parse_tm_file`, as consumed by
`trace_tm` and `get_transitions`.  `transitions` is the dict mapping
(current_state, input_symbol) to the list of transitions accumulated in
file order; dict keys are unique. -/
structure Machine where
  name : String
  states : List String
  input_alphabet : List Char
  tape_alphabet : List Char
  start_state : String
  accept_state : String
  reject_state : String
  transitions : List ((String × Char) × List Trans)
deriving Repr, DecidableEq

/-- One queue item of `trace_tm`: (left_tape, current_state, right_tape, path). -/
structure Config where
  left : List Char
  state : String
  right : List Char
  path : List Step
deriving Repr, DecidableEq

/-- The mutable loop state of `trace_tm`: the frontier `queue`, `depth`,
and `states_explored`. -/
structure SimState where
  queue : List Config
  depth : Nat
  statesExplored : Nat
deriving Repr, DecidableEq

/-- The possible outcomes of `trace_tm`.  The three return strings
"accepted", "max depth exceeded" and "not accepted" carry the statistics
printed just before returning; "invalid move direction" prints nothing.
`zeroDivisionError` models the uncaught Python `ZeroDivisionError` raised
by `states_explored / depth` on the reject path when `depth == 0`. -/
inductive Result where
  | accepted (depth statesExplored : Nat)
  | invalidMoveDirection
  | maxDepthExceeded (depth statesExplored : Nat)
  | notAccepted (depth statesExplored : Nat)
  | zeroDivisionError
deriving Repr, DecidableEq

/-- Outcome of processing part of the loop body: either the whole run
terminates with a `Result` (an early `return` in the source), or the loop
continues with an updated `SimState`. -/
inductive StepOut where
  | done (r : Result)
  | cont (st : SimState)
deriving Repr, DecidableEq

/-- `get_transitions` (source lines 46-57): exact dict lookup on
(current_state, input_symbol), empty list when no rule matches. -/
def get_transitions (m : Machine) (current_state : String) (input_symbol : Char) :
    List Trans :=
  match m.transitions.lookup (current_state, input_symbol) with
  | some ts => ts
  | none => []

/-- Tape update for a right move (source lines 92-94):
`new_left_tape = left_tape + replace_symbol`;
`new_right_tape = right_tape[1:] if len(right_tape) > 1 else "_"`. -/
def rightMoveTapes (left right : List Char) (replace_symbol : Char) :
    List Char × List Char :=
  (left ++ [replace_symbol], if 1 < right.length then right.drop 1 else ['_'])

/-- Tape update for a left move (source lines 95-100): `continue` (here
`none`) when the left tape is empty; otherwise pop the last left-tape
symbol and prepend it and `replace_symbol` to the rest of the right tape
(a single blank when the right tape was empty). -/
def leftMoveTapes (left right : List Char) (replace_symbol : Char) :
    Option (List Char × List Char) :=
  if h : left = [] then
    none
  else
    some (left.dropLast,
      left.getLast h :: replace_symbol ::
        (match right with
         | [] => ['_']
         | _ :: rest => rest))

/-- Tail of the loop body after the tapes were updated (source lines
104-134): build the new path, return "accepted" if the next state is the
accept state, otherwise enqueue the child at the back of the queue,
update `depth`, and return "max depth exceeded" when the stop condition
is reached. -/
def finishTrans (m : Machine) (stop_condition : Nat) (current_state : String)
    (input_symbol : Char) (next_state : String) (replace_symbol : Char)
    (move_direction : String) (newLeft newRight : List Char) (path : List Step)
    (st : SimState) : StepOut :=
  let newPath := path ++ [(current_state, input_symbol, next_state,
    replace_symbol, move_direction)]
  if next_state = m.accept_state then
    StepOut.done (Result.accepted newPath.length st.statesExplored)
  else
    let queue2 := st.queue ++ [⟨newLeft, next_state, newRight, newPath⟩]
    let newDepth := max st.depth newPath.length
    if stop_condition ≤ newDepth then
      StepOut.done (Result.maxDepthExceeded newDepth st.statesExplored)
    else
      StepOut.cont ⟨queue2, newDepth, st.statesExplored⟩

/-- One iteration of the `for possible_transition in possible_transitions`
body (source lines 87-134): increment `states_explored`, dispatch on the
move direction ("R", "L" with its left-edge skip, or the fatal
"invalid move direction" return), then hand over to `finishTrans`. -/
def stepTrans (m : Machine) (stop_condition : Nat) (left : List Char)
    (current_state : String) (input_symbol : Char) (right : List Char)
    (path : List Step) (next_state : String) (replace_symbol : Char)
    (move_direction : String) (st : SimState) : StepOut :=
  let st1 : SimState := ⟨st.queue, st.depth, st.statesExplored + 1⟩
  if move_direction = "R" then
    let p := rightMoveTapes left right replace_symbol
    finishTrans m stop_condition current_state input_symbol next_state
      replace_symbol move_direction p.1 p.2 path st1
  else if move_direction = "L" then
    match leftMoveTapes left right replace_symbol with
    | none => StepOut.cont st1
    | some p =>
      finishTrans m stop_condition current_state input_symbol next_state
        replace_symbol move_direction p.1 p.2 path st1
  else
    StepOut.done Result.invalidMoveDirection

/-- The whole `for` loop over the possible transitions, in stored table
order, stopping at the first early `return`. -/
def stepTransList (m : Machine) (stop_condition : Nat) (left : List Char)
    (current_state : String) (input_symbol : Char) (right : List Char)
    (path : List Step) : List Trans → SimState → StepOut
  | [], st => StepOut.cont st
  | (next_state, replace_symbol, move_direction) :: ts, st =>
    match stepTrans m stop_condition left current_state input_symbol right path
        next_state replace_symbol move_direction st with
    | StepOut.done r => StepOut.done r
    | StepOut.cont st2 =>
      stepTransList m stop_condition left current_state input_symbol right path ts st2

/-- Expansion of one dequeued configuration (source lines 75-134): read
the head symbol (blank when the right tape is empty), look up the
transitions, and run the `for` loop (an empty lookup result makes the
loop a no-op, matching the `continue` at line 85). -/
def processConfig (m : Machine) (stop_condition : Nat) (cfg : Config)
    (st : SimState) : StepOut :=
  let input_symbol :=
    match cfg.right with
    | [] => '_'
    | c :: _ => c
  stepTransList m stop_condition cfg.left cfg.state input_symbol cfg.right cfg.path
    (get_transitions m cfg.state input_symbol) st

/-- The `while queue` loop (source lines 74-141), with a fuel parameter
(`none` = fuel exhausted before the run terminated).  When the frontier
empties, the source prints `states_explored / depth` before returning
"not accepted"; with `depth == 0` that division raises
`ZeroDivisionError`, modelled by the `zeroDivisionError` outcome. -/
def traceLoop (m : Machine) (stop_condition : Nat) : Nat → SimState → Option Result
  | 0, _ => none
  | fuel + 1, st =>
    match st.queue with
    | [] =>
      some (if st.depth = 0 then Result.zeroDivisionError
            else Result.notAccepted st.depth st.statesExplored)
    | cfg :: rest =>
      match processConfig m stop_condition cfg ⟨rest, st.depth, st.statesExplored⟩ with
      | StepOut.done r => some r
      | StepOut.cont st2 => traceLoop m stop_condition fuel st2

/-- `trace_tm` (source lines 59-141): start from the single initial
configuration (empty left tape, start state, the input as right tape,
empty path) with `depth = 0` and `states_explored = 0`. -/
def trace_tm (m : Machine) (input_string : List Char) (stop_condition : Nat)
    (fuel : Nat) : Option Result :=
  traceLoop m stop_condition fuel ⟨[⟨[], m.start_state, input_string, []⟩], 0, 0⟩

/-- A small concrete machine used to exercise the theorems below on
concrete inputs: from `q0` reading `0` it moves right into `q1`. -/
def sampleMachine : Machine :=
  ⟨"sample", ["q0", "q1", "qacc", "qrej"], ['0', '1'], ['0', '1', '_'],
    "q0", "qacc", "qrej", [(("q0", '0'), [("q1", '0', "R")])]⟩

/-- A concrete machine with an empty transition table: every run dies at
the initial configuration with `depth = 0`. -/
def noRuleMachine : Machine :=
  ⟨"no-rule", ["q0", "qacc", "qrej"], ['0'], ['0', '_'], "q0", "qacc", "qrej", []⟩

/-! ## Helper lemmas -/

lemma rightMoveTapes_snd_ne_nil (left right : List Char) (w : Char) :
    (rightMoveTapes left right w).2 ≠ [] := by
  unfold rightMoveTapes
  dsimp only
  split
  · intro hc
    have hlen := List.drop_eq_nil_iff.mp hc
    omega
  · simp

lemma leftMoveTapes_some_snd_ne_nil (left right : List Char) (w : Char)
    (p : List Char × List Char) (h : leftMoveTapes left right w = some p) :
    p.2 ≠ [] := by
  unfold leftMoveTapes at h
  split at h
  · exact Option.noConfusion h
  · cases h
    simp

lemma finishTrans_cont (m : Machine) (stop : Nat) (cur : String) (sym : Char)
    (next : String) (w : Char) (dir : String) (nl nr : List Char)
    (path : List Step) (st st2 : SimState)
    (h : finishTrans m stop cur sym next w dir nl nr path st = StepOut.cont st2) :
    st2 = ⟨st.queue ++ [⟨nl, next, nr, path ++ [(cur, sym, next, w, dir)]⟩],
           max st.depth (path.length + 1), st.statesExplored⟩ := by
  simp only [finishTrans] at h
  split at h
  · exact StepOut.noConfusion h
  · split at h
    · exact StepOut.noConfusion h
    · cases h
      simp

lemma stepTrans_cont_shape (m : Machine) (stop : Nat) (left : List Char)
    (cur : String) (sym : Char) (right : List Char) (path : List Step)
    (next : String) (w : Char) (dir : String) (st st2 : SimState)
    (h : stepTrans m stop left cur sym right path next w dir st = StepOut.cont st2) :
    st2 = ⟨st.queue, st.depth, st.statesExplored + 1⟩ ∨
    ∃ c : Config, c.right ≠ [] ∧
      st2 = ⟨st.queue ++ [c], max st.depth (path.length + 1),
             st.statesExplored + 1⟩ := by
  simp only [stepTrans] at h
  split at h
  · right
    have h2 := finishTrans_cont _ _ _ _ _ _ _ _ _ _ _ _ h
    exact ⟨⟨(rightMoveTapes left right w).1, next, (rightMoveTapes left right w).2,
      path ++ [(cur, sym, next, w, dir)]⟩,
      rightMoveTapes_snd_ne_nil left right w, by rw [h2]⟩
  · split at h
    · cases hl : leftMoveTapes left right w with
      | none =>
        rw [hl] at h
        cases h
        exact Or.inl rfl
      | some p =>
        rw [hl] at h
        right
        have h2 := finishTrans_cont _ _ _ _ _ _ _ _ _ _ _ _ h
        exact ⟨⟨p.1, next, p.2, path ++ [(cur, sym, next, w, dir)]⟩,
          leftMoveTapes_some_snd_ne_nil left right w p hl, by rw [h2]⟩
    · exact StepOut.noConfusion h

lemma stepTransList_cont_shape (m : Machine) (stop : Nat) (left : List Char)
    (cur : String) (sym : Char) (right : List Char) (path : List Step) :
    ∀ (ts : List Trans) (st st' : SimState),
      stepTransList m stop left cur sym right path ts st = StepOut.cont st' →
      ∃ tail : List Config, st'.queue = st.queue ++ tail ∧
        (∀ c ∈ tail, c.right ≠ []) ∧
        st'.statesExplored = st.statesExplored + ts.length
  | [], st, st', h => by
    cases h
    exact ⟨[], by simp, by simp, by simp⟩
  | (next, w, dir) :: ts, st, st', h => by
    simp only [stepTransList] at h
    cases hs : stepTrans m stop left cur sym right path next w dir st with
    | done r =>
      rw [hs] at h
      exact StepOut.noConfusion h
    | cont st2 =>
      rw [hs] at h
      obtain ⟨tail2, hq2, hr2, he2⟩ :=
        stepTransList_cont_shape m stop left cur sym right path ts st2 st' h
      rcases stepTrans_cont_shape m stop left cur sym right path next w dir st st2 hs
        with h1 | ⟨c, hc, h1⟩
      · subst h1
        refine ⟨tail2, hq2, hr2, ?_⟩
        dsimp only at he2
        simp only [List.length_cons]
        omega
      · subst h1
        refine ⟨c :: tail2, ?_, ?_, ?_⟩
        · rw [hq2]
          simp
        · intro x hx
          rcases List.mem_cons.mp hx with hx | hx
          · subst hx; exact hc
          · exact hr2 x hx
        · dsimp only at he2
          simp only [List.length_cons]
          omega

/-! ## Claim theorems -/

/-- C1: whenever an applied transition's next state equals the machine's
accept state, the run terminates immediately with the Accept outcome —
the remaining transitions of the expansion are not processed, no child is
enqueued — and the reported depth is the length of the accepting path
(the old path plus this one transition). -/
theorem accept_terminates_run_immediately (m : Machine) (stop : Nat)
    (left : List Char) (cur : String) (sym : Char) (right : List Char)
    (path : List Step) (next : String) (w : Char) (dir : String)
    (rest : List Trans) (st : SimState)
    (happ : dir = "R" ∨ (dir = "L" ∧ left ≠ []))
    (hacc : next = m.accept_state) :
    stepTransList m stop left cur sym right path ((next, w, dir) :: rest) st
      = StepOut.done (Result.accepted (path.length + 1) (st.statesExplored + 1)) := by
  rcases happ with hR | ⟨hL, hne⟩
  · subst hR
    simp [stepTransList, stepTrans, finishTrans, hacc]
  · subst hL
    simp [stepTransList, stepTrans, finishTrans, leftMoveTapes, hne, hacc]

/-- Witness for C1 on the sample machine: one applied right-move into the
accept state from the initial configuration accepts at depth 1 with one
transition simulated, regardless of the pending second transition. -/
theorem accept_terminates_run_immediately_witness :
    stepTransList sampleMachine 1000 [] "q0" '0' ['0'] []
        [("qacc", '0', "R"), ("q1", '1', "R")] ⟨[], 0, 0⟩
      = StepOut.done (Result.accepted 1 1) :=
  accept_terminates_run_immediately sampleMachine 1000 [] "q0" '0' ['0'] []
    "qacc" '0' "R" [("q1", '1', "R")] ⟨[], 0, 0⟩ (Or.inl rfl) rfl

/-- C2: the frontier is a strict FIFO queue: each loop iteration removes
the oldest pending configuration (the head of the queue) and expands it
against the rest of the queue, and an expansion only ever appends
children at the back, so the old queue is an unchanged initial segment of
the new queue — breadth-first (level) order. -/
theorem frontier_is_fifo_queue (m : Machine) (stop fuel : Nat) (cfg : Config)
    (rest : List Config) (d s : Nat) (left : List Char) (cur : String)
    (sym : Char) (right : List Char) (path : List Step) (ts : List Trans)
    (st st' : SimState) :
    (traceLoop m stop (fuel + 1) ⟨cfg :: rest, d, s⟩
       = match processConfig m stop cfg ⟨rest, d, s⟩ with
         | StepOut.done r => some r
         | StepOut.cont st2 => traceLoop m stop fuel st2) ∧
    (stepTransList m stop left cur sym right path ts st = StepOut.cont st' →
       st'.queue.take st.queue.length = st.queue) := by
  constructor
  · rfl
  · intro h
    obtain ⟨tail, htail, -, -⟩ :=
      stepTransList_cont_shape m stop left cur sym right path ts st st' h
    rw [htail, List.take_left]

/-- Witness for C2: expanding against a queue holding one older pending
configuration leaves that configuration first; the new child sits behind
it. -/
theorem frontier_is_fifo_queue_witness :
    (⟨[⟨['1'], "q1", ['1'], []⟩,
       ⟨['0'], "q1", ['_'], [("q0", '0', "q1", '0', "R")]⟩], 1, 1⟩
        : SimState).queue.take 1 = [⟨['1'], "q1", ['1'], []⟩] :=
  (frontier_is_fifo_queue sampleMachine 1000 0 ⟨[], "q0", [], []⟩ [] 0 0
    [] "q0" '0' ['0'] [] [("q1", '0', "R")]
    ⟨[⟨['1'], "q1", ['1'], []⟩], 0, 0⟩
    ⟨[⟨['1'], "q1", ['1'], []⟩,
      ⟨['0'], "q1", ['_'], [("q0", '0', "q1", '0', "R")]⟩], 1, 1⟩).2 rfl

/-- C3 counterexample: clause "the child's right tape equals the parent's
right tape with the head symbol dropped" with the exception restricted to
parents of right-tape length exactly 1 fails when the parent's right tape
is empty: the code produces the single blank, while dropping the head of
the empty tape would give the empty sequence, and the empty tape does not
have length 1. -/
theorem right_move_claim_counterexample :
    (rightMoveTapes [] [] 'x').2 = ['_'] ∧
    (([] : List Char).length ≠ 1) ∧
    ((['_'] : List Char) ≠ ([] : List Char).drop 1) := by
  decide

/-- C3 amended: on a right move the child's left tape is the parent's
left tape with the write symbol appended, and the child's right tape is
the parent's right tape with the head symbol dropped, except that when
the parent's right tape has length at most 1 (length 1 or empty) the
child's right tape is the single blank `'_'`; it is never the empty
sequence. -/
theorem right_move_tapes_spec (left right : List Char) (w : Char) :
    rightMoveTapes left right w
      = (left ++ [w], if right.length ≤ 1 then ['_'] else right.drop 1) ∧
    (rightMoveTapes left right w).2 ≠ [] := by
  refine ⟨?_, rightMoveTapes_snd_ne_nil left right w⟩
  unfold rightMoveTapes
  by_cases h : 1 < right.length
  · rw [if_pos h, if_neg (by omega)]
  · rw [if_neg h, if_pos (by omega)]

/-- C4: on a left move with empty left tape no child is produced and the
transition is silently skipped (only the attempt counter advances);
otherwise the child's left tape is the parent's left tape with its last
symbol popped, and the child's right tape is that popped symbol, then the
write symbol, then the remainder of the parent's right tape after its
head (the single blank when the parent's right tape was empty). -/
theorem left_move_tapes_spec (m : Machine) (stop : Nat) (cur : String)
    (sym : Char) (init right : List Char) (lastSym w : Char) (path : List Step)
    (next : String) (st : SimState) :
    leftMoveTapes [] right w = none ∧
    leftMoveTapes (init ++ [lastSym]) right w
      = some (init, lastSym :: w :: (if right = [] then ['_'] else right.drop 1)) ∧
    stepTrans m stop [] cur sym right path next w "L" st
      = StepOut.cont ⟨st.queue, st.depth, st.statesExplored + 1⟩ := by
  refine ⟨rfl, ?_, ?_⟩
  · unfold leftMoveTapes
    rw [dif_neg (by simp)]
    rw [List.dropLast_concat, List.getLast_concat]
    cases right <;> simp
  · rfl

/-- C5: a transition whose direction is neither "L" nor "R" aborts the
whole expansion at once with the invalid-move-direction outcome, which is
a distinct outcome from Accept, Reject, Resource-Exhausted and the
division crash; the remaining transitions are not processed. -/
theorem invalid_direction_aborts (m : Machine) (stop : Nat) (left : List Char)
    (cur : String) (sym : Char) (right : List Char) (path : List Step)
    (next : String) (w : Char) (dir : String) (rest : List Trans)
    (st : SimState) (d s : Nat)
    (h1 : dir ≠ "R") (h2 : dir ≠ "L") :
    stepTransList m stop left cur sym right path ((next, w, dir) :: rest) st
      = StepOut.done Result.invalidMoveDirection ∧
    Result.invalidMoveDirection ≠ Result.accepted d s ∧
    Result.invalidMoveDirection ≠ Result.notAccepted d s ∧
    Result.invalidMoveDirection ≠ Result.maxDepthExceeded d s ∧
    Result.invalidMoveDirection ≠ Result.zeroDivisionError := by
  refine ⟨?_, fun hc => Result.noConfusion hc, fun hc => Result.noConfusion hc,
    fun hc => Result.noConfusion hc, fun hc => Result.noConfusion hc⟩
  simp [stepTransList, stepTrans, h1, h2]

/-- Witness for C5: a transition with direction "D" on the first step
aborts the expansion with the invalid-move-direction outcome. -/
theorem invalid_direction_aborts_witness :
    stepTransList sampleMachine 1000 [] "q0" '0' ['0'] []
        [("q1", '0', "D"), ("q1", '0', "R")] ⟨[], 0, 0⟩
      = StepOut.done Result.invalidMoveDirection :=
  (invalid_direction_aborts sampleMachine 1000 [] "q0" '0' ['0'] []
    "q1" '0' "D" [("q1", '0', "R")] ⟨[], 0, 0⟩ 0 0
    (by decide) (by decide)).1

/-- C6 (code bug): on a machine with no applicable rule the frontier
empties with `depth = 0`, and the run ends in the uncaught
`ZeroDivisionError` raised by `states_explored / depth` on the reject
path (source line 140) instead of terminating normally with the Reject
outcome — the division by zero is not guarded. -/
theorem depth_zero_reject_division_crash :
    trace_tm noRuleMachine ['0'] 1000 3 = some Result.zeroDivisionError ∧
    some Result.zeroDivisionError ≠ some (Result.notAccepted 0 0) := by
  refine ⟨rfl, ?_⟩
  intro hc
  exact Result.noConfusion (Option.some.inj hc)

/-- C7: when the depth bound is reached immediately after enqueuing a
child, the run terminates with the Resource-Exhausted outcome carrying
the depth and attempt counter of that moment, and that outcome is
distinct from plain Reject and from Accept. -/
theorem depth_bound_resource_exhausted (m : Machine) (stop : Nat)
    (left : List Char) (cur : String) (sym : Char) (right : List Char)
    (path : List Step) (next : String) (w : Char) (dir : String)
    (st : SimState) (d s : Nat)
    (happ : dir = "R" ∨ (dir = "L" ∧ left ≠ []))
    (hnacc : next ≠ m.accept_state)
    (hstop : stop ≤ max st.depth (path.length + 1)) :
    stepTrans m stop left cur sym right path next w dir st
      = StepOut.done (Result.maxDepthExceeded (max st.depth (path.length + 1))
          (st.statesExplored + 1)) ∧
    Result.maxDepthExceeded (max st.depth (path.length + 1))
        (st.statesExplored + 1) ≠ Result.notAccepted d s ∧
    Result.maxDepthExceeded (max st.depth (path.length + 1))
        (st.statesExplored + 1) ≠ Result.accepted d s := by
  refine ⟨?_, fun hc => Result.noConfusion hc, fun hc => Result.noConfusion hc⟩
  rcases happ with hR | ⟨hL, hne⟩
  · subst hR
    simp [stepTrans, finishTrans, hnacc, hstop]
  · subst hL
    simp [stepTrans, finishTrans, leftMoveTapes, hne, hnacc, hstop]

/-- Witness for C7: with stop bound 1, the very first enqueued child
triggers the Resource-Exhausted outcome at depth 1 after one simulated
transition. -/
theorem depth_bound_resource_exhausted_witness :
    stepTrans sampleMachine 1 [] "q0" '0' ['0'] [] "q1" '0' "R" ⟨[], 0, 0⟩
      = StepOut.done (Result.maxDepthExceeded 1 1) :=
  (depth_bound_resource_exhausted sampleMachine 1 [] "q0" '0' ['0'] []
    "q1" '0' "R" ⟨[], 0, 0⟩ 0 0 (Or.inl rfl) (by decide) (by decide)).1

/-- C8: `states_explored` counts attempted transition applications: every
single applied transition that lets the loop continue advances the
counter by exactly one — a left-edge-violating left move, which produces
no child, included — a whole uninterrupted expansion advances it by the
number of looked-up transitions, and the counter never decreases. -/
theorem states_explored_counts_attempts (m : Machine) (stop : Nat)
    (left : List Char) (cur : String) (sym : Char) (right : List Char)
    (path : List Step) (next : String) (w : Char) (dir : String)
    (ts : List Trans) (st st2 st' : SimState) :
    (stepTrans m stop left cur sym right path next w dir st = StepOut.cont st2 →
       st2.statesExplored = st.statesExplored + 1) ∧
    (dir = "L" → left = [] →
       stepTrans m stop left cur sym right path next w dir st
         = StepOut.cont ⟨st.queue, st.depth, st.statesExplored + 1⟩) ∧
    (stepTransList m stop left cur sym right path ts st = StepOut.cont st' →
       st'.statesExplored = st.statesExplored + ts.length) ∧
    (stepTransList m stop left cur sym right path ts st = StepOut.cont st' →
       st.statesExplored ≤ st'.statesExplored) := by
  have hlist : stepTransList m stop left cur sym right path ts st = StepOut.cont st' →
      st'.statesExplored = st.statesExplored + ts.length := by
    intro h
    obtain ⟨-, -, -, he⟩ :=
      stepTransList_cont_shape m stop left cur sym right path ts st st' h
    exact he
  refine ⟨?_, ?_, hlist, fun h => by rw [hlist h]; omega⟩
  · intro h
    rcases stepTrans_cont_shape m stop left cur sym right path next w dir st st2 h
      with h1 | ⟨c, -, h1⟩ <;> rw [h1]
  · intro hL hleft
    subst hL
    subst hleft
    rfl

/-- Witness for C8: an expansion whose first transition is a
left-edge-violating left move and whose second is an ordinary right move
advances the counter by exactly 2. -/
theorem states_explored_counts_attempts_witness :
    (⟨[⟨['0'], "q1", ['_'], [("q0", '0', "q1", '0', "R")]⟩], 1, 2⟩
        : SimState).statesExplored
      = (⟨[], 0, 0⟩ : SimState).statesExplored + 2 :=
  (states_explored_counts_attempts sampleMachine 1000 [] "q0" '0' ['0'] []
    "q1" '0' "R" [("q1", '0', "L"), ("q1", '0', "R")] ⟨[], 0, 0⟩ ⟨[], 0, 0⟩
    ⟨[⟨['0'], "q1", ['_'], [("q0", '0', "q1", '0', "R")]⟩], 1, 2⟩).2.2.1 rfl

/-- C9: a configuration with an empty right tape reads the blank symbol:
its expansion is exactly the ordinary transition lookup at `'_'`, and
when that lookup is empty the branch dies silently, leaving the loop
state untouched — never an error. -/
theorem empty_right_tape_reads_blank (m : Machine) (stop : Nat)
    (left : List Char) (cur : String) (path : List Step) (st : SimState) :
    processConfig m stop ⟨left, cur, [], path⟩ st
      = stepTransList m stop left cur '_' [] path (get_transitions m cur '_') st ∧
    (get_transitions m cur '_' = [] →
       processConfig m stop ⟨left, cur, [], path⟩ st = StepOut.cont st) := by
  refine ⟨rfl, fun h => ?_⟩
  simp only [processConfig]
  rw [h]
  rfl

/-- Witness for C9: the sample machine has no rule for ("q1", blank), so
a configuration in state "q1" with empty right tape is expanded into
nothing and the loop state is unchanged. -/
theorem empty_right_tape_reads_blank_witness :
    processConfig sampleMachine 1000 ⟨[], "q1", [], []⟩ ⟨[], 0, 0⟩
      = StepOut.cont ⟨[], 0, 0⟩ :=
  (empty_right_tape_reads_blank sampleMachine 1000 [] "q1" [] ⟨[], 0, 0⟩).2 rfl

/-- C10: every child configuration enqueued by an expansion has a
non-empty right tape: the right-move tape construction and the left-move
tape construction both yield a right tape of length at least one, and
consequently every configuration an expansion adds beyond the old queue
has a non-empty right tape. -/
theorem enqueued_children_right_nonempty (m : Machine) (stop : Nat)
    (left : List Char) (cur : String) (sym : Char) (right : List Char)
    (path : List Step) (ts : List Trans) (st st' : SimState) (w : Char) :
    ((rightMoveTapes left right w).2 ≠ []) ∧
    (∀ p : List Char × List Char, leftMoveTapes left right w = some p → p.2 ≠ []) ∧
    (stepTransList m stop left cur sym right path ts st = StepOut.cont st' →
       ∀ c ∈ st'.queue.drop st.queue.length, c.right ≠ []) := by
  refine ⟨rightMoveTapes_snd_ne_nil left right w,
    fun p hp => leftMoveTapes_some_snd_ne_nil left right w p hp, fun h => ?_⟩
  obtain ⟨tail, htail, hr, -⟩ :=
    stepTransList_cont_shape m stop left cur sym right path ts st st' h
  rw [htail, List.drop_left]
  exact hr

/-- Witness for C10: the child enqueued by the sample machine's first
expansion has the non-empty right tape `['_']`. -/
theorem enqueued_children_right_nonempty_witness :
    (⟨['0'], "q1", ['_'], [("q0", '0', "q1", '0', "R")]⟩ : Config).right ≠ [] :=
  (enqueued_children_right_nonempty sampleMachine 1000 [] "q0" '0' ['0'] []
    [("q1", '0', "R")] ⟨[], 0, 0⟩
    ⟨[⟨['0'], "q1", ['_'], [("q0", '0', "q1", '0', "R")]⟩], 1, 1⟩ '0').2.2 rfl
    ⟨['0'], "q1", ['_'], [("q0", '0', "q1", '0', "R")]⟩ (List.Mem.head _)

end NTMTrace
